import Mathlib

/-!
Verification of the adaptive multi-server selection and erasure-coded
retrieval engine: a shallow embedding of `ems-algorithms/ucb_algorithms.py`
(the two UCB selectors `L_EMS` and `D_EMS`), of the erasure-coding layout of
`ems-tools/encode_video.py` and `video-client/decode-proxy.py`, and of the
retrieval loop of `video-clients/proxy.py`.  Python floats are modelled as
real numbers; Python dicts of per-server metrics as functions (total ones
when the constructor guarantees coverage, association lists where the
possibility of a `KeyError` matters); byte strings as lists of field
elements.
-/

variable {S : Type} [DecidableEq S]

/-- Descending comparison on scores: `a` comes before `b` when `f b ≤ f a`.
This is the order used by Python's `sorted(..., key=lambda x: x[1], reverse=True)`. -/
def descRel (f : S → ℝ) : S → S → Prop := fun a b => f b ≤ f a

noncomputable instance (f : S → ℝ) : DecidableRel (descRel f) :=
  fun a b => inferInstanceAs (Decidable (f b ≤ f a))

instance (f : S → ℝ) : IsTotal S (descRel f) := ⟨fun a b => le_total (f b) (f a)⟩

instance (f : S → ℝ) : IsTrans S (descRel f) := ⟨fun _ _ _ h1 h2 => le_trans h2 h1⟩

/-- Sort a list of servers by descending score, as `sorted(ucb_estimates.items(),
key=lambda x: x[1], reverse=True)` does in the source. -/
noncomputable def sortDesc (f : S → ℝ) (l : List S) : List S := List.insertionSort (descRel f) l

/-- State of the latency-sensitive selector `L_EMS`: the server universe
`self.servers`, the parameter `self.D`, the quality map `self.omega` and the
selection-count map `self.n`. -/
structure LState (S : Type) where
  servers : List S
  D : ℕ
  omega : S → ℝ
  n : S → ℕ

/-- Constructor `L_EMS.__init__`: every server starts at quality `0.5` with
selection count `1`. -/
noncomputable def L_init (servers : List S) (D : ℕ) : LState S :=
  { servers := servers, D := D, omega := fun _ => 0.5, n := fun _ => 1 }

/-- The UCB estimate computed in `L_EMS.select_servers`:
`omega[server] + sqrt((D + 1) * log(round_num) / n[server])`. -/
noncomputable def L_ucb (st : LState S) (round : ℕ) (s : S) : ℝ :=
  st.omega s + Real.sqrt (((st.D : ℝ) + 1) * Real.log round / (st.n s : ℝ))

/-- The body of `L_EMS.select_servers`: sort all servers by descending UCB
estimate and keep the first `D` (`sorted_servers[:self.D]`, which silently
returns fewer than `D` servers when fewer are registered). -/
noncomputable def L_select (st : LState S) (round : ℕ) : List S :=
  (sortDesc (L_ucb st round) st.servers).take st.D

/-- One iteration of the loop in `L_EMS.update`: a selected server present in
the `latencies` dict receives the incremental-mean update with outcome
`1.0 - latencies[server]` and its count is bumped; a server absent from the
dict is left alone. -/
noncomputable def L_step (lat : S → Option ℝ) (acc : LState S) (s : S) : LState S :=
  match lat s with
  | some v =>
      { acc with
        omega := Function.update acc.omega s
          ((acc.omega s * (acc.n s : ℝ) + (1 - v)) / ((acc.n s : ℝ) + 1)),
        n := Function.update acc.n s (acc.n s + 1) }
  | none => acc

/-- `L_EMS.update(selected_servers, latencies)`. -/
noncomputable def L_update (st : LState S) (sel : List S) (lat : S → Option ℝ) : LState S :=
  sel.foldl (L_step lat) st

/-- State of the deadline-aware selector `D_EMS`: server universe, parameters
`D`, `H`, `V`, quality map `self.theta`, count map `self.n` and the virtual
queue `self.Q`. -/
structure DState (S : Type) where
  servers : List S
  D : ℕ
  H : ℝ
  V : ℝ
  theta : S → ℝ
  n : S → ℕ
  Q : ℝ

/-- Constructor `D_EMS.__init__`: qualities `0.5`, counts `1`, queue `Q = 0`. -/
noncomputable def D_init (servers : List S) (D : ℕ) (H V : ℝ) : DState S :=
  { servers := servers, D := D, H := H, V := V
    theta := fun _ => 0.5, n := fun _ => 1, Q := 0 }

/-- The capped UCB estimate computed in `D_EMS.select_servers`:
`min(theta[server] + sqrt(2 * log(round_num) / n[server]), 1.0)`. -/
noncomputable def D_ucb (st : DState S) (round : ℕ) (s : S) : ℝ :=
  min (st.theta s + Real.sqrt (2 * Real.log round / (st.n s : ℝ))) 1

/-- One iteration of the loop in `D_EMS.update`: outcome `successes[server]`
is folded into the running mean when present. -/
noncomputable def D_step (succ : S → Option ℝ) (acc : DState S) (s : S) : DState S :=
  match succ s with
  | some v =>
      { acc with
        theta := Function.update acc.theta s
          ((acc.theta s * (acc.n s : ℝ) + v) / ((acc.n s : ℝ) + 1)),
        n := Function.update acc.n s (acc.n s + 1) }
  | none => acc

/-- `D_EMS.update(selected_servers, successes)`: the per-server loop followed
by the virtual-queue update `Q = max(Q - H, 0) + len(selected_servers)`. -/
noncomputable def D_update (st : DState S) (sel : List S) (succ : S → Option ℝ) : DState S :=
  let st' := sel.foldl (D_step succ) st
  { st' with Q := max (st'.Q - st'.H) 0 + (sel.length : ℝ) }

/-- States of the deadline-aware selector reachable through its public
operations: freshly constructed, or obtained by an `update` call. -/
inductive DReach : DState S → Prop
  | init (servers : List S) (D : ℕ) (H V : ℝ) : DReach (D_init servers D H V)
  | step (st : DState S) (sel : List S) (succ : S → Option ℝ) :
      DReach st → DReach (D_update st sel succ)

lemma L_step_apply_ne (lat : S → Option ℝ) (acc : LState S) {s t : S} (h : t ≠ s) :
    (L_step lat acc t).omega s = acc.omega s ∧ (L_step lat acc t).n s = acc.n s := by
  unfold L_step
  cases lat t with
  | none => exact ⟨rfl, rfl⟩
  | some v => exact ⟨Function.update_noteq (fun hc => h hc.symm) _ _,
      Function.update_noteq (fun hc => h hc.symm) _ _⟩

lemma D_step_apply_ne (succ : S → Option ℝ) (acc : DState S) {s t : S} (h : t ≠ s) :
    (D_step succ acc t).theta s = acc.theta s ∧ (D_step succ acc t).n s = acc.n s := by
  unfold D_step
  cases succ t with
  | none => exact ⟨rfl, rfl⟩
  | some v => exact ⟨Function.update_noteq (fun hc => h hc.symm) _ _,
      Function.update_noteq (fun hc => h hc.symm) _ _⟩

lemma L_update_apply_of_notin (sel : List S) (st : LState S) (lat : S → Option ℝ) (s : S)
    (h : s ∉ sel ∨ lat s = none) :
    (L_update st sel lat).omega s = st.omega s ∧ (L_update st sel lat).n s = st.n s := by
  induction sel generalizing st with
  | nil => exact ⟨rfl, rfl⟩
  | cons a rest ih =>
      have hstep : (L_step lat st a).omega s = st.omega s ∧ (L_step lat st a).n s = st.n s := by
        rcases h with h | h
        · exact L_step_apply_ne lat st (fun hc => h (hc ▸ List.mem_cons_self a rest))
        · by_cases hc : a = s
          · subst hc
            unfold L_step
            rw [h]
            exact ⟨rfl, rfl⟩
          · exact L_step_apply_ne lat st hc
      have hrest : s ∉ rest ∨ lat s = none := by
        rcases h with h | h
        · exact Or.inl fun hc => h (List.mem_cons_of_mem a hc)
        · exact Or.inr h
      have := ih (L_step lat st a) hrest
      exact ⟨this.1.trans hstep.1, this.2.trans hstep.2⟩

lemma D_fold_apply_of_notin (sel : List S) (st : DState S) (succ : S → Option ℝ) (s : S)
    (h : s ∉ sel ∨ succ s = none) :
    (sel.foldl (D_step succ) st).theta s = st.theta s ∧
      (sel.foldl (D_step succ) st).n s = st.n s := by
  induction sel generalizing st with
  | nil => exact ⟨rfl, rfl⟩
  | cons a rest ih =>
      have hstep : (D_step succ st a).theta s = st.theta s ∧ (D_step succ st a).n s = st.n s := by
        rcases h with h | h
        · exact D_step_apply_ne succ st (fun hc => h (hc ▸ List.mem_cons_self a rest))
        · by_cases hc : a = s
          · subst hc
            unfold D_step
            rw [h]
            exact ⟨rfl, rfl⟩
          · exact D_step_apply_ne succ st hc
      have hrest : s ∉ rest ∨ succ s = none := by
        rcases h with h | h
        · exact Or.inl fun hc => h (List.mem_cons_of_mem a hc)
        · exact Or.inr h
      have := ih (D_step succ st a) hrest
      exact ⟨this.1.trans hstep.1, this.2.trans hstep.2⟩

lemma L_update_apply_of_mem (sel : List S) (st : LState S) (lat : S → Option ℝ) (s : S) (x : ℝ)
    (hnd : sel.Nodup) (hs : s ∈ sel) (hx : lat s = some x) :
    (L_update st sel lat).omega s
        = (st.omega s * (st.n s : ℝ) + (1 - x)) / ((st.n s : ℝ) + 1) ∧
      (L_update st sel lat).n s = st.n s + 1 := by
  induction sel generalizing st with
  | nil => cases hs
  | cons a rest ih =>
      rcases List.nodup_cons.mp hnd with ⟨ha, hrest⟩
      rcases List.mem_cons.mp hs with h | h
      · subst h
        have hnotin : s ∉ rest := ha
        have hpres := L_update_apply_of_notin rest (L_step lat st s) lat s (Or.inl hnotin)
        have hstep : (L_step lat st s).omega s
              = (st.omega s * (st.n s : ℝ) + (1 - x)) / ((st.n s : ℝ) + 1) ∧
            (L_step lat st s).n s = st.n s + 1 := by
          unfold L_step
          rw [hx]
          exact ⟨Function.update_same _ _ _, Function.update_same _ _ _⟩
        exact ⟨hpres.1.trans hstep.1, hpres.2.trans hstep.2⟩
      · have hne : a ≠ s := fun hc => ha (hc ▸ h)
        have hstep := L_step_apply_ne lat st hne
        have := ih (L_step lat st a) hrest h
        rw [hstep.1, hstep.2] at this
        exact this

lemma D_fold_apply_of_mem (sel : List S) (st : DState S) (succ : S → Option ℝ) (s : S) (x : ℝ)
    (hnd : sel.Nodup) (hs : s ∈ sel) (hx : succ s = some x) :
    (sel.foldl (D_step succ) st).theta s
        = (st.theta s * (st.n s : ℝ) + x) / ((st.n s : ℝ) + 1) ∧
      (sel.foldl (D_step succ) st).n s = st.n s + 1 := by
  induction sel generalizing st with
  | nil => cases hs
  | cons a rest ih =>
      rcases List.nodup_cons.mp hnd with ⟨ha, hrest⟩
      rcases List.mem_cons.mp hs with h | h
      · subst h
        have hpres := D_fold_apply_of_notin rest (D_step succ st s) succ s (Or.inl ha)
        have hstep : (D_step succ st s).theta s
              = (st.theta s * (st.n s : ℝ) + x) / ((st.n s : ℝ) + 1) ∧
            (D_step succ st s).n s = st.n s + 1 := by
          unfold D_step
          rw [hx]
          exact ⟨Function.update_same _ _ _, Function.update_same _ _ _⟩
        exact ⟨hpres.1.trans hstep.1, hpres.2.trans hstep.2⟩
      · have hne : a ≠ s := fun hc => ha (hc ▸ h)
        have hstep := D_step_apply_ne succ st hne
        have := ih (D_step succ st a) hrest h
        rw [hstep.1, hstep.2] at this
        exact this

lemma D_step_Q_H (succ : S → Option ℝ) (acc : DState S) (s : S) :
    (D_step succ acc s).Q = acc.Q ∧ (D_step succ acc s).H = acc.H := by
  unfold D_step
  cases succ s with
  | none => exact ⟨rfl, rfl⟩
  | some v => exact ⟨rfl, rfl⟩

lemma D_fold_Q_H (sel : List S) (st : DState S) (succ : S → Option ℝ) :
    (sel.foldl (D_step succ) st).Q = st.Q ∧ (sel.foldl (D_step succ) st).H = st.H := by
  induction sel generalizing st with
  | nil => exact ⟨rfl, rfl⟩
  | cons a rest ih =>
      have hstep := D_step_Q_H succ st a
      have := ih (D_step succ st a)
      exact ⟨this.1.trans hstep.1, this.2.trans hstep.2⟩

lemma D_update_Q (st : DState S) (sel : List S) (succ : S → Option ℝ) :
    (D_update st sel succ).Q = max (st.Q - st.H) 0 + (sel.length : ℝ) := by
  unfold D_update
  have h := D_fold_Q_H sel st succ
  simp only [h.1, h.2]

lemma D_update_theta_n (st : DState S) (sel : List S) (succ : S → Option ℝ) (s : S) :
    (D_update st sel succ).theta s = (sel.foldl (D_step succ) st).theta s ∧
      (D_update st sel succ).n s = (sel.foldl (D_step succ) st).n s :=
  ⟨rfl, rfl⟩

lemma DReach_Q_nonneg {st : DState S} (h : DReach st) : 0 ≤ st.Q := by
  induction h with
  | init servers D H V => simp [D_init]
  | step st sel succ _ _ =>
      rw [D_update_Q]
      have h1 : (0 : ℝ) ≤ max (st.Q - st.H) 0 := le_max_right _ _
      have h2 : (0 : ℝ) ≤ (sel.length : ℝ) := Nat.cast_nonneg _
      linarith

/-- Claim C4: for a server `s` that is both selected and present in the
outcome mapping with value `x`, `update` of either selector sets the quality
to `(quality * selections + outcome) / (selections + 1)` and then increments
the selection count by one; the latency-sensitive selector applies the
outcome `1 - latency`, the deadline-aware one the raw success indicator. -/
theorem update_incremental_mean (stL : LState S) (stD : DState S) (sel : List S)
    (lat succ : S → Option ℝ) (s : S) (x y : ℝ)
    (hnd : sel.Nodup) (hs : s ∈ sel) (hx : lat s = some x) (hy : succ s = some y) :
    (L_update stL sel lat).omega s
        = (stL.omega s * (stL.n s : ℝ) + (1 - x)) / ((stL.n s : ℝ) + 1) ∧
      (L_update stL sel lat).n s = stL.n s + 1 ∧
      (D_update stD sel succ).theta s
        = (stD.theta s * (stD.n s : ℝ) + y) / ((stD.n s : ℝ) + 1) ∧
      (D_update stD sel succ).n s = stD.n s + 1 := by
  have hL := L_update_apply_of_mem sel stL lat s x hnd hs hx
  have hD := D_fold_apply_of_mem sel stD succ s y hnd hs hy
  exact ⟨hL.1, hL.2, hD.1, hD.2⟩

theorem update_incremental_mean_witness :
    ([0] : List ℕ).Nodup ∧ (0 : ℕ) ∈ ([0] : List ℕ) ∧
      ((fun _ : ℕ => some (0 : ℝ)) 0 = some 0) ∧
      ((fun _ : ℕ => some (1 : ℝ)) 0 = some 1) ∧
      ((L_update (L_init [0] 6) [0] fun _ => some 0).omega 0
          = ((L_init ([0] : List ℕ) 6).omega 0 * ((L_init ([0] : List ℕ) 6).n 0 : ℝ) + (1 - 0))
            / (((L_init ([0] : List ℕ) 6).n 0 : ℝ) + 1) ∧
        (L_update (L_init [0] 6) [0] fun _ => some 0).n 0 = (L_init ([0] : List ℕ) 6).n 0 + 1 ∧
        (D_update (D_init [0] 6 9 100) [0] fun _ => some 1).theta 0
          = ((D_init ([0] : List ℕ) 6 9 100).theta 0 * ((D_init ([0] : List ℕ) 6 9 100).n 0 : ℝ) + 1)
            / (((D_init ([0] : List ℕ) 6 9 100).n 0 : ℝ) + 1) ∧
        (D_update (D_init [0] 6 9 100) [0] fun _ => some 1).n 0
          = (D_init ([0] : List ℕ) 6 9 100).n 0 + 1) :=
  ⟨by decide, by decide, rfl, rfl,
    update_incremental_mean (L_init [0] 6) (D_init [0] 6 9 100) [0] _ _ 0 0 1
      (by decide) (by decide) rfl rfl⟩

/-- Claim C5: a server omitted from the outcome mapping (or not selected)
keeps its `(quality, selections)` pair exactly unchanged by `update`, in both
selector variants. -/
theorem non_response_neutrality (stL : LState S) (stD : DState S) (sel : List S)
    (lat succ : S → Option ℝ) (s : S)
    (hL : s ∉ sel ∨ lat s = none) (hD : s ∉ sel ∨ succ s = none) :
    (L_update stL sel lat).omega s = stL.omega s ∧
      (L_update stL sel lat).n s = stL.n s ∧
      (D_update stD sel succ).theta s = stD.theta s ∧
      (D_update stD sel succ).n s = stD.n s := by
  have h1 := L_update_apply_of_notin sel stL lat s hL
  have h2 := D_fold_apply_of_notin sel stD succ s hD
  exact ⟨h1.1, h1.2, h2.1, h2.2⟩

theorem non_response_neutrality_witness :
    ((0 : ℕ) ∉ ([1] : List ℕ) ∨ (fun _ : ℕ => some (0 : ℝ)) 0 = none) ∧
      ((0 : ℕ) ∉ ([1] : List ℕ) ∨ (fun _ : ℕ => some (1 : ℝ)) 0 = none) ∧
      ((L_update (L_init [0, 1] 6) [1] fun _ => some 0).omega 0
            = (L_init ([0, 1] : List ℕ) 6).omega 0 ∧
        (L_update (L_init [0, 1] 6) [1] fun _ => some 0).n 0 = (L_init ([0, 1] : List ℕ) 6).n 0 ∧
        (D_update (D_init [0, 1] 6 9 100) [1] fun _ => some 1).theta 0
            = (D_init ([0, 1] : List ℕ) 6 9 100).theta 0 ∧
        (D_update (D_init [0, 1] 6 9 100) [1] fun _ => some 1).n 0
            = (D_init ([0, 1] : List ℕ) 6 9 100).n 0) :=
  ⟨Or.inl (by decide), Or.inl (by decide),
    non_response_neutrality (L_init [0, 1] 6) (D_init [0, 1] 6 9 100) [1] _ _ 0
      (Or.inl (by decide)) (Or.inl (by decide))⟩

/-- Claim C6: the virtual queue of the deadline-aware selector starts at `0`,
each `update` call rewrites it exactly by `Q = max(Q - H, 0) + len(selected)`,
and in every state reachable through the public operations it is non-negative. -/
theorem virtual_queue_invariant (servers : List S) (D : ℕ) (H V : ℝ)
    (st : DState S) (sel : List S) (succ : S → Option ℝ) (hst : DReach st) :
    (D_init servers D H V).Q = 0 ∧
      (D_update st sel succ).Q = max (st.Q - st.H) 0 + (sel.length : ℝ) ∧
      0 ≤ st.Q :=
  ⟨rfl, D_update_Q st sel succ, DReach_Q_nonneg hst⟩

theorem virtual_queue_invariant_witness :
    DReach (D_init ([0] : List ℕ) 6 9 100) ∧
      ((D_init ([0] : List ℕ) 6 9 100).Q = 0 ∧
        (D_update (D_init ([0] : List ℕ) 6 9 100) [0] fun _ => some 1).Q
          = max ((D_init ([0] : List ℕ) 6 9 100).Q - (D_init ([0] : List ℕ) 6 9 100).H) 0
            + (([0] : List ℕ).length : ℝ) ∧
        0 ≤ (D_init ([0] : List ℕ) 6 9 100).Q) :=
  ⟨DReach.init [0] 6 9 100,
    virtual_queue_invariant [0] 6 9 100 (D_init [0] 6 9 100) [0] (fun _ => some 1)
      (DReach.init [0] 6 9 100)⟩

lemma incremental_mean_dist (q x : ℝ) (n : ℕ) :
    |(q * (n : ℝ) + x) / ((n : ℝ) + 1) - x| = ((n : ℝ) / ((n : ℝ) + 1)) * |q - x| := by
  have hn : ((n : ℝ) + 1) ≠ 0 := by positivity
  have h : (q * (n : ℝ) + x) / ((n : ℝ) + 1) - x = ((n : ℝ) / ((n : ℝ) + 1)) * (q - x) := by
    field_simp
    ring
  rw [h, abs_mul, abs_of_nonneg (by positivity : (0 : ℝ) ≤ (n : ℝ) / ((n : ℝ) + 1))]

lemma incremental_mean_dist_le (q x : ℝ) (n : ℕ) :
    |(q * (n : ℝ) + x) / ((n : ℝ) + 1) - x| ≤ |q - x| := by
  rw [incremental_mean_dist]
  have hr : (n : ℝ) / ((n : ℝ) + 1) ≤ 1 := by
    rw [div_le_one (by positivity)]
    linarith
  exact mul_le_of_le_one_left (abs_nonneg _) hr

lemma incremental_mean_dist_lt (q x : ℝ) (n : ℕ) (h : q ≠ x) :
    |(q * (n : ℝ) + x) / ((n : ℝ) + 1) - x| < |q - x| := by
  rw [incremental_mean_dist]
  have hr : (n : ℝ) / ((n : ℝ) + 1) < 1 := by
    rw [div_lt_one (by positivity)]
    linarith
  have habs : 0 < |q - x| := abs_pos.mpr (sub_ne_zero_of_ne h)
  calc ((n : ℝ) / ((n : ℝ) + 1)) * |q - x| < 1 * |q - x| :=
        mul_lt_mul_of_pos_right hr habs
    _ = |q - x| := one_mul _

/-- Repeated `L_EMS.update` on a single server with a constant observed
latency `la` (so a constant outcome `1 - la`). -/
noncomputable def L_iter (st : LState S) (s : S) (la : ℝ) : ℕ → LState S
  | 0 => st
  | t + 1 => L_update (L_iter st s la t) [s] fun _ => some la

/-- Repeated `D_EMS.update` on a single server with a constant success
indicator `x`. -/
noncomputable def D_iter (st : DState S) (s : S) (x : ℝ) : ℕ → DState S
  | 0 => st
  | t + 1 => D_update (D_iter st s x t) [s] fun _ => some x

lemma L_iter_succ_omega (st : LState S) (s : S) (la : ℝ) (t : ℕ) :
    (L_iter st s la (t + 1)).omega s
      = ((L_iter st s la t).omega s * ((L_iter st s la t).n s : ℝ) + (1 - la))
        / (((L_iter st s la t).n s : ℝ) + 1) :=
  (L_update_apply_of_mem [s] (L_iter st s la t) (fun _ => some la) s la
    (List.nodup_singleton s) (List.mem_singleton_self s) rfl).1

lemma D_iter_succ_theta (st : DState S) (s : S) (x : ℝ) (t : ℕ) :
    (D_iter st s x (t + 1)).theta s
      = ((D_iter st s x t).theta s * ((D_iter st s x t).n s : ℝ) + x)
        / (((D_iter st s x t).n s : ℝ) + 1) := by
  have h := (D_fold_apply_of_mem [s] (D_iter st s x t) (fun _ => some x) s x
    (List.nodup_singleton s) (List.mem_singleton_self s) rfl).1
  exact ((D_update_theta_n (D_iter st s x t) [s] (fun _ => some x) s).1.trans h)

/-- Claim C8: starting from any state with selection count at least one,
repeatedly applying `update` with a constant outcome drives the quality
monotonically toward that outcome: the distance to the outcome never grows at
any step, and shrinks strictly while the quality differs from the outcome.
The latency-sensitive selector is fed the constant latency `la`, so its
constant outcome is `1 - la`; the deadline-aware one is fed `x` directly. -/
theorem estimator_convergence (stL : LState S) (stD : DState S) (s : S) (la x : ℝ) (t : ℕ)
    (hnL : 1 ≤ stL.n s) (hnD : 1 ≤ stD.n s) :
    (|(L_iter stL s la (t + 1)).omega s - (1 - la)| ≤ |(L_iter stL s la t).omega s - (1 - la)| ∧
      ((L_iter stL s la t).omega s ≠ 1 - la →
        |(L_iter stL s la (t + 1)).omega s - (1 - la)| < |(L_iter stL s la t).omega s - (1 - la)|)) ∧
      (|(D_iter stD s x (t + 1)).theta s - x| ≤ |(D_iter stD s x t).theta s - x| ∧
        ((D_iter stD s x t).theta s ≠ x →
          |(D_iter stD s x (t + 1)).theta s - x| < |(D_iter stD s x t).theta s - x|)) := by
  constructor
  · rw [L_iter_succ_omega]
    exact ⟨incremental_mean_dist_le _ _ _, fun h => incremental_mean_dist_lt _ _ _ h⟩
  · rw [D_iter_succ_theta]
    exact ⟨incremental_mean_dist_le _ _ _, fun h => incremental_mean_dist_lt _ _ _ h⟩

theorem estimator_convergence_witness :
    1 ≤ (L_init ([0] : List ℕ) 6).n 0 ∧ 1 ≤ (D_init ([0] : List ℕ) 6 9 100).n 0 ∧
      ((|(L_iter (L_init ([0] : List ℕ) 6) 0 1 1).omega 0 - (1 - 1)|
            ≤ |(L_iter (L_init ([0] : List ℕ) 6) 0 1 0).omega 0 - (1 - 1)| ∧
          ((L_iter (L_init ([0] : List ℕ) 6) 0 1 0).omega 0 ≠ 1 - 1 →
            |(L_iter (L_init ([0] : List ℕ) 6) 0 1 1).omega 0 - (1 - 1)|
              < |(L_iter (L_init ([0] : List ℕ) 6) 0 1 0).omega 0 - (1 - 1)|)) ∧
        (|(D_iter (D_init ([0] : List ℕ) 6 9 100) 0 1 1).theta 0 - 1|
            ≤ |(D_iter (D_init ([0] : List ℕ) 6 9 100) 0 1 0).theta 0 - 1| ∧
          ((D_iter (D_init ([0] : List ℕ) 6 9 100) 0 1 0).theta 0 ≠ 1 →
            |(D_iter (D_init ([0] : List ℕ) 6 9 100) 0 1 1).theta 0 - 1|
              < |(D_iter (D_init ([0] : List ℕ) 6 9 100) 0 1 0).theta 0 - 1|))) :=
  ⟨by decide, by decide,
    estimator_convergence (L_init [0] 6) (D_init [0] 6 9 100) 0 1 1 0 (by decide) (by decide)⟩

lemma ucb_bonus_mono_round (c : ℝ) (hc : 0 ≤ c) {r r2 n : ℕ} (hr : 2 ≤ r) (hr2 : r ≤ r2)
    (hn : 1 ≤ n) : c * Real.log r / (n : ℝ) ≤ c * Real.log r2 / (n : ℝ) := by
  have hrpos : (0 : ℝ) < (r : ℝ) := by
    have : (0 : ℕ) < r := lt_of_lt_of_le (by decide) hr
    exact_mod_cast this
  have hlog : Real.log r ≤ Real.log r2 := Real.log_le_log hrpos (by exact_mod_cast hr2)
  have hnpos : (0 : ℝ) < (n : ℝ) := by exact_mod_cast lt_of_lt_of_le (by decide) hn
  have := mul_le_mul_of_nonneg_left hlog hc
  exact div_le_div_of_nonneg_right this hnpos.le

lemma ucb_bonus_anti_count (c : ℝ) (hc : 0 ≤ c) {r n n2 : ℕ} (hr : 2 ≤ r) (hn : 1 ≤ n)
    (hn2 : n ≤ n2) : c * Real.log r / (n2 : ℝ) ≤ c * Real.log r / (n : ℝ) := by
  have hlog : 0 ≤ Real.log r := Real.log_nonneg (by exact_mod_cast le_trans (by decide) hr)
  have hnum : 0 ≤ c * Real.log r := mul_nonneg hc hlog
  have hnpos : (0 : ℝ) < (n : ℝ) := by exact_mod_cast lt_of_lt_of_le (by decide) hn
  exact div_le_div_of_nonneg_left hnum hnpos (by exact_mod_cast hn2)

/-- Claim C7: with quality fixed, the UCB score of a server is non-decreasing
in the round number (for rounds at least 2) when the selection count is held
fixed, and non-increasing in the selection count when the round is held
fixed; for the deadline-aware selector this holds for the capped score
`min(theta + sqrt(2 * log(round) / n), 1.0)`.  The two count-comparisons are
stated between a state `st2`/`dt2` and a state `st`/`dt` that agree on the
server's quality (and, for `L_EMS`, on `D`) but where `st2`/`dt2` has the
larger selection count. -/
theorem monotone_confidence (st st2 : LState S) (dt dt2 : DState S) (s : S) (r r2 : ℕ)
    (hr : 2 ≤ r) (hr2 : r ≤ r2) (hnL : 1 ≤ st.n s) (hnD : 1 ≤ dt.n s)
    (homega : st2.omega s = st.omega s) (hD : st2.D = st.D) (hnn : st.n s ≤ st2.n s)
    (htheta : dt2.theta s = dt.theta s) (hnn2 : dt.n s ≤ dt2.n s) :
    L_ucb st r s ≤ L_ucb st r2 s ∧ L_ucb st2 r s ≤ L_ucb st r s ∧
      D_ucb dt r s ≤ D_ucb dt r2 s ∧ D_ucb dt2 r s ≤ D_ucb dt r s := by
  have hcL : (0 : ℝ) ≤ (st.D : ℝ) + 1 := by positivity
  have hc2 : (0 : ℝ) ≤ (2 : ℝ) := by norm_num
  refine ⟨?_, ?_, ?_, ?_⟩
  · unfold L_ucb
    exact add_le_add_left (Real.sqrt_le_sqrt (ucb_bonus_mono_round _ hcL hr hr2 hnL)) _
  · unfold L_ucb
    rw [homega, hD]
    exact add_le_add_left (Real.sqrt_le_sqrt (ucb_bonus_anti_count _ hcL hr hnL hnn)) _
  · unfold D_ucb
    exact min_le_min
      (add_le_add_left (Real.sqrt_le_sqrt (ucb_bonus_mono_round _ hc2 hr hr2 hnD)) _) le_rfl
  · unfold D_ucb
    rw [htheta]
    exact min_le_min
      (add_le_add_left (Real.sqrt_le_sqrt (ucb_bonus_anti_count _ hc2 hr hnD hnn2)) _) le_rfl

theorem monotone_confidence_witness :
    (2 ≤ 2 ∧ 2 ≤ 3 ∧ 1 ≤ (L_init ([0] : List ℕ) 6).n 0 ∧
        1 ≤ (D_init ([0] : List ℕ) 6 9 100).n 0 ∧
        (LState.mk ([0] : List ℕ) 6 (fun _ => 0.5) fun _ => 2).omega 0
          = (L_init ([0] : List ℕ) 6).omega 0 ∧
        (LState.mk ([0] : List ℕ) 6 (fun _ => 0.5) fun _ => 2).D = (L_init ([0] : List ℕ) 6).D ∧
        (L_init ([0] : List ℕ) 6).n 0 ≤ (LState.mk ([0] : List ℕ) 6 (fun _ => 0.5) fun _ => 2).n 0 ∧
        (DState.mk ([0] : List ℕ) 6 9 100 (fun _ => 0.5) (fun _ => 2) 0).theta 0
          = (D_init ([0] : List ℕ) 6 9 100).theta 0 ∧
        (D_init ([0] : List ℕ) 6 9 100).n 0
          ≤ (DState.mk ([0] : List ℕ) 6 9 100 (fun _ => 0.5) (fun _ => 2) 0).n 0) ∧
      (L_ucb (L_init ([0] : List ℕ) 6) 2 0 ≤ L_ucb (L_init ([0] : List ℕ) 6) 3 0 ∧
        L_ucb (LState.mk ([0] : List ℕ) 6 (fun _ => 0.5) fun _ => 2) 2 0
          ≤ L_ucb (L_init ([0] : List ℕ) 6) 2 0 ∧
        D_ucb (D_init ([0] : List ℕ) 6 9 100) 2 0 ≤ D_ucb (D_init ([0] : List ℕ) 6 9 100) 3 0 ∧
        D_ucb (DState.mk ([0] : List ℕ) 6 9 100 (fun _ => 0.5) (fun _ => 2) 0) 2 0
          ≤ D_ucb (D_init ([0] : List ℕ) 6 9 100) 2 0) :=
  ⟨⟨by decide, by decide, by decide, by decide, rfl, rfl, by decide, rfl, by decide⟩,
    monotone_confidence (L_init [0] 6) (LState.mk [0] 6 (fun _ => 0.5) fun _ => 2)
      (D_init [0] 6 9 100) (DState.mk [0] 6 9 100 (fun _ => 0.5) (fun _ => 2) 0) 0 2 3
      (by decide) (by decide) (by decide) (by decide) rfl rfl (by decide) rfl (by decide)⟩

lemma sortDesc_perm (f : S → ℝ) (l : List S) : List.Perm (sortDesc f l) l :=
  List.perm_insertionSort _ l

lemma sortDesc_sorted (f : S → ℝ) (l : List S) : (sortDesc f l).Sorted (descRel f) :=
  List.sorted_insertionSort _ l

lemma sortDesc_length (f : S → ℝ) (l : List S) : (sortDesc f l).length = l.length :=
  (sortDesc_perm f l).length_eq

lemma sortDesc_take_drop_le (f : S → ℝ) (l : List S) (D : ℕ) :
    ∀ x ∈ (sortDesc f l).take D, ∀ y ∈ (sortDesc f l).drop D, f y ≤ f x := by
  have hs := sortDesc_sorted f l
  rw [← List.take_append_drop D (sortDesc f l), List.Sorted, List.pairwise_append] at hs
  exact fun x hx y hy => hs.2.2 x hx y hy

/-- Claim C2 (amended): with a duplicate-free server list, whenever at least
`D` servers are registered, `L_EMS.select_servers` returns exactly `D`
distinct servers, sorted by descending UCB score
`omega + sqrt((D + 1) * log(round) / n)`, and every unselected server scores
no higher than every selected one; with fewer than `D` servers registered it
does not fail but silently returns all of them. -/
theorem fixed_size_selection (st : LState S) (round : ℕ) (hnd : st.servers.Nodup) :
    (st.D ≤ st.servers.length →
        (L_select st round).length = st.D ∧ (L_select st round).Nodup ∧
        (L_select st round).Sorted (descRel (L_ucb st round)) ∧
        ∀ s ∈ st.servers, s ∉ L_select st round →
          ∀ t ∈ L_select st round, L_ucb st round s ≤ L_ucb st round t) ∧
      (st.servers.length < st.D → List.Perm (L_select st round) st.servers) := by
  constructor
  · intro hD
    have hlen : (sortDesc (L_ucb st round) st.servers).length = st.servers.length :=
      sortDesc_length _ _
    refine ⟨?_, ?_, ?_, ?_⟩
    · rw [L_select, List.length_take, hlen]
      exact min_eq_left hD
    · exact ((sortDesc_perm (L_ucb st round) st.servers).nodup_iff.mpr hnd).sublist
        (List.take_sublist _ _)
    · exact (sortDesc_sorted (L_ucb st round) st.servers).sublist (List.take_sublist _ _)
    · intro s hs hnotsel t ht
      have hs2 : s ∈ sortDesc (L_ucb st round) st.servers :=
        (sortDesc_perm (L_ucb st round) st.servers).mem_iff.mpr hs
      rw [← List.take_append_drop st.D (sortDesc (L_ucb st round) st.servers),
        List.mem_append] at hs2
      rcases hs2 with h | h
      · exact absurd h hnotsel
      · exact sortDesc_take_drop_le (L_ucb st round) st.servers st.D t ht s h
  · intro hD
    have : (sortDesc (L_ucb st round) st.servers).length ≤ st.D := by
      rw [sortDesc_length]
      exact le_of_lt hD
    rw [L_select, List.take_of_length_le this]
    exact sortDesc_perm _ _

theorem fixed_size_selection_witness :
    ([0, 1] : List ℕ).Nodup ∧
      (((LState.mk ([0, 1] : List ℕ) 1 (fun _ => 0.5) fun _ => 1).D
            ≤ (LState.mk ([0, 1] : List ℕ) 1 (fun _ => 0.5) fun _ => 1).servers.length →
          (L_select (LState.mk ([0, 1] : List ℕ) 1 (fun _ => 0.5) fun _ => 1) 2).length
              = (LState.mk ([0, 1] : List ℕ) 1 (fun _ => 0.5) fun _ => 1).D ∧
            (L_select (LState.mk ([0, 1] : List ℕ) 1 (fun _ => 0.5) fun _ => 1) 2).Nodup ∧
            (L_select (LState.mk ([0, 1] : List ℕ) 1 (fun _ => 0.5) fun _ => 1) 2).Sorted
              (descRel (L_ucb (LState.mk ([0, 1] : List ℕ) 1 (fun _ => 0.5) fun _ => 1) 2)) ∧
            ∀ s ∈ (LState.mk ([0, 1] : List ℕ) 1 (fun _ => 0.5) fun _ => 1).servers,
              s ∉ L_select (LState.mk ([0, 1] : List ℕ) 1 (fun _ => 0.5) fun _ => 1) 2 →
              ∀ t ∈ L_select (LState.mk ([0, 1] : List ℕ) 1 (fun _ => 0.5) fun _ => 1) 2,
                L_ucb (LState.mk ([0, 1] : List ℕ) 1 (fun _ => 0.5) fun _ => 1) 2 s
                  ≤ L_ucb (LState.mk ([0, 1] : List ℕ) 1 (fun _ => 0.5) fun _ => 1) 2 t) ∧
        ((LState.mk ([0, 1] : List ℕ) 1 (fun _ => 0.5) fun _ => 1).servers.length
            < (LState.mk ([0, 1] : List ℕ) 1 (fun _ => 0.5) fun _ => 1).D →
          List.Perm (L_select (LState.mk ([0, 1] : List ℕ) 1 (fun _ => 0.5) fun _ => 1) 2)
            (LState.mk ([0, 1] : List ℕ) 1 (fun _ => 0.5) fun _ => 1).servers)) :=
  ⟨by decide, fixed_size_selection (LState.mk [0, 1] 1 (fun _ => 0.5) fun _ => 1) 2 (by decide)⟩

/-- Claim C2, failure clause of the original claim, refuted: with a single
registered server and `D = 2`, `L_EMS.select_servers` does not fail with
`InsufficientServers`; it silently returns the one registered server, hence
not a list of `D` distinct servers. -/
theorem fixed_size_selection_cex :
    L_select (LState.mk ([0] : List ℕ) 2 (fun _ => 0.5) fun _ => 1) 2 = [0] ∧
      (L_select (LState.mk ([0] : List ℕ) 2 (fun _ => 0.5) fun _ => 1) 2).length ≠ 2 := by
  have h : L_select (LState.mk ([0] : List ℕ) 2 (fun _ => 0.5) fun _ => 1) 2 = [0] := rfl
  exact ⟨h, by rw [h]; decide⟩

/-- Descending order on raw scores, used by `sorted(success_probs, reverse=True)`
inside `D_EMS.calculate_reward`. -/
def descRelR : ℝ → ℝ → Prop := fun a b => b ≤ a

noncomputable instance : DecidableRel descRelR := fun a b => inferInstanceAs (Decidable (b ≤ a))

instance : IsTotal ℝ descRelR := ⟨fun a b => le_total b a⟩

instance : IsTrans ℝ descRelR := ⟨fun _ _ _ h1 h2 => le_trans h2 h1⟩

instance : IsAntisymm ℝ descRelR := ⟨fun _ _ h1 h2 => le_antisymm h2 h1⟩

noncomputable def sortDescR (l : List ℝ) : List ℝ := List.insertionSort descRelR l

/-- `D_EMS.calculate_reward(servers, ucb_estimates)`: `0.0` when fewer than
`D` servers are given, otherwise the `D`-th largest of the servers' UCB
estimates (`sorted_probs[self.D - 1]` after a descending sort; the embedding
covers the regime `1 ≤ D` in which the selector is used — at `D = 0` the
Python code would read `sorted_probs[-1]`, Python's last-element indexing). -/
noncomputable def calculate_reward (D : ℕ) (ucb : S → ℝ) (servers : List S) : ℝ :=
  if servers.length < D then 0 else (sortDescR (servers.map ucb)).getD (D - 1) 0

/-- The expansion loop of `D_EMS.select_servers`: scan the remaining servers
in descending score order and append a candidate while the marginal Lyapunov
gain `V * (reward(selected + [c]) - reward(selected))` exceeds `Q`; the first
failing candidate stops the scan. -/
noncomputable def D_extend (D : ℕ) (V Q : ℝ) (ucb : S → ℝ) : List S → List S → List S
  | sel, [] => sel
  | sel, c :: rest =>
    if V * (calculate_reward D ucb (sel ++ [c]) - calculate_reward D ucb sel) > Q then
      D_extend D V Q ucb (sel ++ [c]) rest
    else sel

/-- `D_EMS.select_servers(round_num)`: capped UCB scores, descending sort,
top `D` unconditionally, then the Lyapunov expansion scan over the rest. -/
noncomputable def D_select (st : DState S) (round : ℕ) : List S :=
  D_extend st.D st.V st.Q (D_ucb st round)
    ((sortDesc (D_ucb st round) st.servers).take st.D)
    ((sortDesc (D_ucb st round) st.servers).drop st.D)

lemma sortDescR_perm (l : List ℝ) : List.Perm (sortDescR l) l :=
  List.perm_insertionSort _ l

lemma sortDescR_snoc_bottom (xs : List ℝ) (y : ℝ) (hy : ∀ x ∈ xs, y ≤ x) :
    sortDescR (xs ++ [y]) = sortDescR xs ++ [y] := by
  apply List.eq_of_perm_of_sorted (r := descRelR)
  · exact (sortDescR_perm (xs ++ [y])).trans
      (List.Perm.append_right [y] (sortDescR_perm xs).symm)
  · exact List.sorted_insertionSort _ _
  · rw [List.Sorted, List.pairwise_append]
    refine ⟨List.sorted_insertionSort _ _, List.pairwise_singleton _ _, ?_⟩
    intro a ha b hb
    rw [List.mem_singleton] at hb
    subst hb
    exact hy a ((sortDescR_perm xs).mem_iff.mp ha)

lemma calculate_reward_snoc (D : ℕ) (ucb : S → ℝ) (sel : List S) (c : S)
    (hD : 1 ≤ D) (hlen : sel.length = D) (hc : ∀ x ∈ sel, ucb c ≤ ucb x) :
    calculate_reward D ucb (sel ++ [c]) = calculate_reward D ucb sel := by
  unfold calculate_reward
  rw [if_neg (by rw [List.length_append, hlen, List.length_singleton]; omega),
    if_neg (by rw [hlen]; omega), List.map_append, List.map_singleton,
    sortDescR_snoc_bottom (sel.map ucb) (ucb c) (by
      intro x hx
      rcases List.mem_map.mp hx with ⟨t, ht, rfl⟩
      exact hc t ht)]
  apply List.getD_append
  have : (sortDescR (sel.map ucb)).length = D := by
    rw [(sortDescR_perm (sel.map ucb)).length_eq, List.length_map, hlen]
  omega

lemma D_extend_stop (D : ℕ) (V Q : ℝ) (ucb : S → ℝ) (sel cands : List S)
    (hQ : 0 ≤ Q) (hD : 1 ≤ D) (hlen : sel.length = D)
    (hc : ∀ c ∈ cands, ∀ x ∈ sel, ucb c ≤ ucb x) :
    D_extend D V Q ucb sel cands = sel := by
  cases cands with
  | nil => rfl
  | cons c rest =>
      rw [D_extend,
        calculate_reward_snoc D ucb sel c hD hlen (hc c (List.mem_cons_self c rest)),
        sub_self, mul_zero, if_neg (not_lt.mpr hQ)]

/-- Claim C3: in every reachable state of the deadline-aware selector (where
`Q ≥ 0`) with `D ≥ 1` and at least `D` registered servers,
`D_EMS.select_servers` returns exactly the top `D` servers: every candidate
scanned after the top `D` has a marginal Lyapunov gain of exactly `0` (the
`D`-th-order-statistic reward is unchanged by appending it), the test
`V * gain > Q` therefore never succeeds, and the expansion scan stops at the
first candidate, so the variable-size policy never selects more than `D`
servers. -/
theorem deadline_selection_fixed_size (st : DState S) (round : ℕ)
    (hst : DReach st) (hD : 1 ≤ st.D) (hlen : st.D ≤ st.servers.length) :
    D_select st round = (sortDesc (D_ucb st round) st.servers).take st.D ∧
      (D_select st round).length = st.D ∧
      ∀ c ∈ (sortDesc (D_ucb st round) st.servers).drop st.D,
        st.V * (calculate_reward st.D (D_ucb st round)
            ((sortDesc (D_ucb st round) st.servers).take st.D ++ [c])
          - calculate_reward st.D (D_ucb st round)
            ((sortDesc (D_ucb st round) st.servers).take st.D)) = 0 := by
  have hQ : 0 ≤ st.Q := DReach_Q_nonneg hst
  have htake : ((sortDesc (D_ucb st round) st.servers).take st.D).length = st.D := by
    rw [List.length_take, sortDesc_length]
    exact min_eq_left hlen
  have hcross : ∀ c ∈ (sortDesc (D_ucb st round) st.servers).drop st.D,
      ∀ x ∈ (sortDesc (D_ucb st round) st.servers).take st.D,
        D_ucb st round c ≤ D_ucb st round x := by
    intro c hc x hx
    exact sortDesc_take_drop_le (D_ucb st round) st.servers st.D x hx c hc
  have hsel : D_select st round = (sortDesc (D_ucb st round) st.servers).take st.D :=
    D_extend_stop st.D st.V st.Q (D_ucb st round) _ _ hQ hD htake hcross
  refine ⟨hsel, by rw [hsel]; exact htake, ?_⟩
  intro c hc
  rw [calculate_reward_snoc st.D (D_ucb st round) _ c hD htake (hcross c hc),
    sub_self, mul_zero]

theorem deadline_selection_fixed_size_witness :
    DReach (D_init ([0, 1] : List ℕ) 1 9 100) ∧
      1 ≤ (D_init ([0, 1] : List ℕ) 1 9 100).D ∧
      (D_init ([0, 1] : List ℕ) 1 9 100).D ≤ (D_init ([0, 1] : List ℕ) 1 9 100).servers.length ∧
      (D_select (D_init ([0, 1] : List ℕ) 1 9 100) 2
          = (sortDesc (D_ucb (D_init ([0, 1] : List ℕ) 1 9 100) 2)
              (D_init ([0, 1] : List ℕ) 1 9 100).servers).take (D_init ([0, 1] : List ℕ) 1 9 100).D ∧
        (D_select (D_init ([0, 1] : List ℕ) 1 9 100) 2).length
          = (D_init ([0, 1] : List ℕ) 1 9 100).D ∧
        ∀ c ∈ (sortDesc (D_ucb (D_init ([0, 1] : List ℕ) 1 9 100) 2)
            (D_init ([0, 1] : List ℕ) 1 9 100).servers).drop (D_init ([0, 1] : List ℕ) 1 9 100).D,
          (D_init ([0, 1] : List ℕ) 1 9 100).V
              * (calculate_reward (D_init ([0, 1] : List ℕ) 1 9 100).D
                  (D_ucb (D_init ([0, 1] : List ℕ) 1 9 100) 2)
                  ((sortDesc (D_ucb (D_init ([0, 1] : List ℕ) 1 9 100) 2)
                      (D_init ([0, 1] : List ℕ) 1 9 100).servers).take
                    (D_init ([0, 1] : List ℕ) 1 9 100).D ++ [c])
                - calculate_reward (D_init ([0, 1] : List ℕ) 1 9 100).D
                  (D_ucb (D_init ([0, 1] : List ℕ) 1 9 100) 2)
                  ((sortDesc (D_ucb (D_init ([0, 1] : List ℕ) 1 9 100) 2)
                      (D_init ([0, 1] : List ℕ) 1 9 100).servers).take
                    (D_init ([0, 1] : List ℕ) 1 9 100).D)) = 0) :=
  ⟨DReach.init [0, 1] 1 9 100, by decide, by decide,
    deadline_selection_fixed_size (D_init [0, 1] 1 9 100) 2 (DReach.init [0, 1] 1 9 100)
      (by decide) (by decide)⟩

/-- Python dict lookup on an association list: `d[s]` yields the first value
bound to `s`, and `none` stands for a `KeyError`. -/
def dget {β : Type} (d : List (S × β)) (s : S) : Option β :=
  match d with
  | [] => none
  | (a, b) :: rest => if s = a then some b else dget rest s

/-- The dict comprehension `{server: 0.5 for server in servers}` run by both
constructors for the initial quality map. -/
noncomputable def init_quality (servers : List S) : List (S × ℝ) :=
  servers.map fun s => (s, 0.5)

/-- The dict comprehension `{server: 1 for server in servers}` run by both
constructors for the initial selection-count map. -/
def init_count (servers : List S) : List (S × ℕ) :=
  servers.map fun s => (s, 1)

/-- `L_EMS.select_servers` at dict level: the score loop reads
`self.omega[server]` and `self.n[server]` for every server of the universe,
so a server without an entry raises `KeyError` (modelled as `none`);
otherwise the selection is the one computed from the entries. -/
noncomputable def L_select_dict (servers : List S) (omega : List (S × ℝ)) (n : List (S × ℕ))
    (D round : ℕ) : Option (List S) :=
  if ∀ s ∈ servers, (dget omega s).isSome ∧ (dget n s).isSome then
    some (L_select
      (LState.mk servers D (fun s => (dget omega s).getD 0) fun s => (dget n s).getD 0) round)
  else none

/-- `D_EMS.select_servers` at dict level, with the same `KeyError` behaviour
on `self.theta[server]` and `self.n[server]`. -/
noncomputable def D_select_dict (servers : List S) (theta : List (S × ℝ)) (n : List (S × ℕ))
    (D : ℕ) (H V Q : ℝ) (round : ℕ) : Option (List S) :=
  if ∀ s ∈ servers, (dget theta s).isSome ∧ (dget n s).isSome then
    some (D_select
      (DState.mk servers D H V (fun s => (dget theta s).getD 0) (fun s => (dget n s).getD 0) Q)
      round)
  else none

lemma dget_init_quality (servers : List S) (s : S) (hs : s ∈ servers) :
    dget (init_quality servers) s = some 0.5 := by
  induction servers with
  | nil => cases hs
  | cons a rest ih =>
      rw [init_quality, List.map_cons]
      by_cases h : s = a
      · rw [dget, if_pos h]
      · rcases List.mem_cons.mp hs with h2 | h2
        · exact absurd h2 h
        · rw [dget, if_neg h]
          exact ih h2

lemma dget_init_count (servers : List S) (s : S) (hs : s ∈ servers) :
    dget (init_count servers) s = some 1 := by
  induction servers with
  | nil => cases hs
  | cons a rest ih =>
      rw [init_count, List.map_cons]
      by_cases h : s = a
      · rw [dget, if_pos h]
      · rcases List.mem_cons.mp hs with h2 | h2
        · exact absurd h2 h
        · rw [dget, if_neg h]
          exact ih h2

/-- Claim C9, refuted at a concrete input: a server id present in the server
universe but without a `(quality, selections)` entry does not get a default
entry on first sight; both selectors' `select_servers` fail (`KeyError` on
`self.omega[server]` / `self.theta[server]`) instead of succeeding. -/
theorem new_server_default_cex :
    L_select_dict ([0] : List ℕ) [] [] 6 2 = none ∧
      D_select_dict ([0] : List ℕ) [] [] 6 9 100 0 2 = none := by
  constructor
  · rw [L_select_dict, if_neg]
    decide
  · rw [D_select_dict, if_neg]
    decide

/-- Claim C9 (amended): per-server entries are created only at construction
time — each constructor initializes every server of the universe it is given
to the default `(quality, selections) = (0.5, 1)` — and on such fully-covered
states both selectors' `select_servers` succeeds; a server appearing in the
universe without an entry makes `select_servers` raise `KeyError` rather
than being initialized on first sight. -/
theorem new_server_default (servers : List S) (D round : ℕ) (H V : ℝ) (s : S)
    (hs : s ∈ servers) :
    dget (init_quality servers) s = some 0.5 ∧ dget (init_count servers) s = some 1 ∧
      (L_select_dict servers (init_quality servers) (init_count servers) D round).isSome ∧
      (D_select_dict servers (init_quality servers) (init_count servers) D H V 0 round).isSome := by
  have hcov : ∀ t ∈ servers,
      (dget (init_quality servers) t).isSome ∧ (dget (init_count servers) t).isSome := by
    intro t ht
    rw [dget_init_quality servers t ht, dget_init_count servers t ht]
    exact ⟨rfl, rfl⟩
  refine ⟨dget_init_quality servers s hs, dget_init_count servers s hs, ?_, ?_⟩
  · rw [L_select_dict, if_pos hcov]
    rfl
  · rw [D_select_dict, if_pos hcov]
    rfl

theorem new_server_default_witness :
    (0 : ℕ) ∈ ([0] : List ℕ) ∧
      (dget (init_quality ([0] : List ℕ)) 0 = some 0.5 ∧
        dget (init_count ([0] : List ℕ)) 0 = some 1 ∧
        (L_select_dict ([0] : List ℕ) (init_quality [0]) (init_count [0]) 6 2).isSome ∧
        (D_select_dict ([0] : List ℕ) (init_quality [0]) (init_count [0]) 6 9 100 0 2).isSome) :=
  ⟨by decide, new_server_default [0] 6 2 9 100 0 (by decide)⟩

/-- Result of steps 1–3 of `proxy.get_chunk` (server selection aside): either
the simulated download and decode complete, yielding the per-index blocks and
the per-server outcome metrics, or some step raises an exception. -/
inductive FetchOutcome (S : Type) where
  | ok (blocks : List (List ℚ)) (metrics : S → Option ℝ)
  | exn

/-- Global state of `video-clients/proxy.py`: the algorithm instance and the
module-level `round_num` counter. -/
structure ProxyState (S : Type) where
  alg : LState S
  round_num : ℕ

/-- `proxy.get_chunk(chunk_name)` for the `L_EMS` configuration (the `D_EMS`
branch differs only in which update it calls): select servers, run the
download/decode steps, then update the metrics and increment `round_num` —
all inside a `try` whose `except` returns a 500 response, skipping the
update and the increment, and leaving the state unchanged. -/
noncomputable def get_chunk (ps : ProxyState S) (fetch : List S → FetchOutcome S) :
    ProxyState S × Option (List ℚ) :=
  let sel := L_select ps.alg ps.round_num
  match fetch sel with
  | FetchOutcome.ok blocks metrics =>
      (ProxyState.mk (L_update ps.alg sel metrics) (ps.round_num + 1), some blocks.flatten)
  | FetchOutcome.exn => (ps, none)

/-- Claim C10, refuted at a concrete input: when a step of the per-chunk
retrieval raises (here the download), the handler returns without calling
the selector's update and without touching `round_num`; the round counter is
not incremented on that invocation, contradicting `increments round exactly
once per invocation regardless of outcome`. -/
theorem orchestrator_bookkeeping_cex :
    (get_chunk (ProxyState.mk (L_init ([0] : List ℕ) 6) 1) fun _ => FetchOutcome.exn).1
        = ProxyState.mk (L_init ([0] : List ℕ) 6) 1 ∧
      (get_chunk (ProxyState.mk (L_init ([0] : List ℕ) 6) 1) fun _ => FetchOutcome.exn).1.round_num
        ≠ 1 + 1 :=
  ⟨rfl, by decide⟩

/-- Claim C10 (amended): when steps 1–3 of the per-chunk retrieval complete,
`get_chunk` calls the selector's update with exactly the gathered metrics and
increments `round_num` exactly once before returning the joined blocks; when
any of those steps raises, the error handler returns an empty-handed response
with the selector state and `round_num` unchanged — the update call and the
increment are skipped, and no worst-case entries are recorded. -/
theorem orchestrator_bookkeeping (ps : ProxyState S) (blocks : List (List ℚ))
    (metrics : S → Option ℝ) (fetch : List S → FetchOutcome S)
    (hok : fetch (L_select ps.alg ps.round_num) = FetchOutcome.ok blocks metrics) :
    (get_chunk ps fetch).1.alg = L_update ps.alg (L_select ps.alg ps.round_num) metrics ∧
      (get_chunk ps fetch).1.round_num = ps.round_num + 1 ∧
      (get_chunk ps fetch).2 = some blocks.flatten ∧
      ∀ g : List S → FetchOutcome S, g (L_select ps.alg ps.round_num) = FetchOutcome.exn →
        (get_chunk ps g).1 = ps ∧ (get_chunk ps g).2 = none := by
  refine ⟨?_, ?_, ?_, ?_⟩
  · rw [get_chunk]
    rw [hok]
  · rw [get_chunk]
    rw [hok]
  · rw [get_chunk]
    rw [hok]
  · intro g hg
    rw [get_chunk]
    rw [hg]
    exact ⟨rfl, rfl⟩

theorem orchestrator_bookkeeping_witness :
    ((fun _ : List ℕ => FetchOutcome.ok ([[1]] : List (List ℚ)) fun _ : ℕ => some (0 : ℝ))
        (L_select (ProxyState.mk (L_init ([0] : List ℕ) 6) 1).alg
          (ProxyState.mk (L_init ([0] : List ℕ) 6) 1).round_num)
        = FetchOutcome.ok ([[1]] : List (List ℚ)) fun _ : ℕ => some (0 : ℝ)) ∧
      ((get_chunk (ProxyState.mk (L_init ([0] : List ℕ) 6) 1)
            fun _ => FetchOutcome.ok [[1]] fun _ => some 0).1.alg
          = L_update (L_init ([0] : List ℕ) 6)
            (L_select (L_init ([0] : List ℕ) 6) 1) (fun _ => some 0) ∧
        (get_chunk (ProxyState.mk (L_init ([0] : List ℕ) 6) 1)
            fun _ => FetchOutcome.ok [[1]] fun _ => some 0).1.round_num = 1 + 1 ∧
        (get_chunk (ProxyState.mk (L_init ([0] : List ℕ) 6) 1)
            fun _ => FetchOutcome.ok [[1]] fun _ => some 0).2
          = some ([[1]] : List (List ℚ)).flatten ∧
        ∀ g : List ℕ → FetchOutcome ℕ,
          g (L_select (L_init ([0] : List ℕ) 6) 1) = FetchOutcome.exn →
          (get_chunk (ProxyState.mk (L_init ([0] : List ℕ) 6) 1) g).1
              = ProxyState.mk (L_init ([0] : List ℕ) 6) 1 ∧
            (get_chunk (ProxyState.mk (L_init ([0] : List ℕ) 6) 1) g).2 = none) :=
  ⟨rfl, orchestrator_bookkeeping (ProxyState.mk (L_init [0] 6) 1) [[1]] (fun _ => some 0)
    (fun _ => FetchOutcome.ok [[1]] fun _ => some 0) rfl⟩

/-- Padding length computed in `erasure_code_chunks`: `(-len(data)) % k`,
written for natural numbers as `(k - orig % k) % k`. -/
def paddingSize (orig k : ℕ) : ℕ := (k - orig % k) % k

/-- `padded_data = data + b'\x00' * padding`.  Byte strings are modelled as
lists over the symbol field ℚ of the modelled codec, zero bytes as `0`. -/
def padData (data : List ℚ) (k : ℕ) : List ℚ :=
  data ++ List.replicate (paddingSize data.length k) 0

/-- `segment_size = len(padded_data) // k`. -/
def segSize (orig k : ℕ) : ℕ := (orig + paddingSize orig k) / k

/-- The split `[padded_data[i*segment_size : (i+1)*segment_size] for i in
range(k)]` into `k` equal segments. -/
def segments (data : List ℚ) (k : ℕ) : List (List ℚ) :=
  (List.range k).map fun i =>
    ((padData data k).drop (i * segSize data.length k)).take (segSize data.length k)

/-- Modelled from the spec: the zfec `Encoder`/`Decoder` internals are not
part of the repository; §4.1 specifies a deterministic linear `k`-of-`n`
erasure code (Reed-Solomon-like) in which any `k` of the `n` fragments
recover the `k` data segments.  It is modelled as an evaluation-style
Reed-Solomon code over ℚ: position-wise, fragment `j` carries the value at
point `j` of the unique polynomial of degree `< k` through the data values
at points `0, ..., k-1`.  `interpEval s r x` is the Lagrange-interpolated
value at `x` of the nodes `{(i, r i) : i ∈ s}`. -/
def interpEval (s : Finset ℕ) (r : ℕ → ℚ) (x : ℚ) : ℚ :=
  ∑ i ∈ s, r i * ∏ j ∈ s.erase i, (((i : ℚ) - (j : ℚ))⁻¹ * (x - (j : ℚ)))

/-- Value of segment `i` at position `t` (with zfec's zero default outside). -/
def segVal (segs : List (List ℚ)) (i t : ℕ) : ℚ := (segs.getD i []).getD t 0

/-- Modelled from the spec: `Encoder(k, k + m).encode(segments)` produces the
`n` fragments, each of `sz` symbols. -/
def zfecEncode (k n sz : ℕ) (segs : List (List ℚ)) : List (List ℚ) :=
  (List.range n).map fun (j : ℕ) =>
    (List.range sz).map fun t => interpEval (Finset.range k) (fun i => segVal segs i t) (j : ℚ)

/-- The per-chunk body of `erasure_code_chunks`: pad, split into `k`
segments, encode into `k + m` fragments. -/
def encodeChunk (data : List ℚ) (k m : ℕ) : List (List ℚ) :=
  zfecEncode k (k + m) (segSize data.length k) (segments data k)

/-- Modelled from the spec: `Decoder(K, K + M).decode(data_blocks, indices)`
reconstructs the `k` data segments from `k` fragments with distinct indices,
position-wise by Lagrange interpolation at the fragment indices. -/
def zfecDecode (k : ℕ) (pairs : List (ℕ × List ℚ)) : List (List ℚ) :=
  (List.range k).map fun (i : ℕ) =>
    (List.range pairs.headI.2.length).map fun t =>
      interpEval ((pairs.map Prod.fst).toFinset)
        (fun j => ((dget pairs j).getD []).getD t 0) (i : ℚ)

/-- `decode_chunk` from `video-client/decode-proxy.py`: with fewer than `K`
blocks return `None`; otherwise decode from the first `K` received
`(index, block)` pairs, join the decoded segments, and truncate to
`original_size`. -/
def decode_chunk (pairs : List (ℕ × List ℚ)) (k m origSize : ℕ) : Option (List ℚ) :=
  if pairs.length < k then none
  else some ((zfecDecode k (pairs.take k)).flatten.take origSize)

lemma padding_makes_divisible (orig k : ℕ) (hk : 1 ≤ k) :
    (orig + paddingSize orig k) % k = 0 := by
  have hkpos : 0 < k := hk
  have hr : orig % k < k := Nat.mod_lt _ hkpos
  rw [paddingSize]
  rcases Nat.eq_zero_or_pos (orig % k) with h | h
  · rw [h, Nat.sub_zero, Nat.mod_self, Nat.add_zero]
    exact h
  · rw [Nat.mod_eq_of_lt (by omega : k - orig % k < k)]
    set r := orig % k with hrdef
    obtain ⟨q, hq⟩ : ∃ q, orig = k * q + r :=
      ⟨orig / k, by rw [hrdef]; exact (Nat.div_add_mod orig k).symm⟩
    rw [hq, (by omega : k * q + r + (k - r) = k * q + k), Nat.mul_add_mod, Nat.mod_self]

lemma k_mul_segSize (orig k : ℕ) (hk : 1 ≤ k) :
    k * segSize orig k = orig + paddingSize orig k := by
  rw [segSize]
  exact Nat.mul_div_cancel' (Nat.dvd_of_mod_eq_zero (padding_makes_divisible orig k hk))

lemma padData_length (data : List ℚ) (k : ℕ) (hk : 1 ≤ k) :
    (padData data k).length = k * segSize data.length k := by
  rw [padData, List.length_append, List.length_replicate, k_mul_segSize _ _ hk]

lemma getD_map_range {β : Type} (f : ℕ → β) {n i : ℕ} (d : β) (h : i < n) :
    ((List.range n).map f).getD i d = f i := by
  rw [List.getD_eq_getElem _ _ (by simpa using h)]
  simp

lemma map_getD_range_eq {β : Type} (l : List β) (d : β) :
    (List.range l.length).map (fun t => l.getD t d) = l := by
  apply List.ext_getElem
  · simp
  · intro i h1 h2
    simp only [List.getElem_map, List.getElem_range]
    exact List.getD_eq_getElem l d h2

lemma flatten_slices (s : ℕ) : ∀ (k : ℕ) (l : List ℚ), l.length = k * s →
    ((List.range k).map fun i => (l.drop (i * s)).take s).flatten = l := by
  intro k
  induction k with
  | zero =>
      intro l hl
      have hnil : l = [] := by
        have h0 : l.length = 0 := by simpa using hl
        exact List.length_eq_zero.mp h0
      rw [hnil]
      rfl
  | succ k ih =>
      intro l hl
      rw [List.range_succ_eq_map, List.map_cons, List.map_map, List.flatten_cons]
      have h0 : (l.drop (0 * s)).take s = l.take s := by
        rw [Nat.zero_mul, List.drop_zero]
      rw [h0]
      have hcong : (List.range k).map ((fun i => (l.drop (i * s)).take s) ∘ Nat.succ)
          = (List.range k).map fun i => ((l.drop s).drop (i * s)).take s := by
        refine List.map_congr_left fun i _ => ?_
        simp only [Function.comp]
        rw [List.drop_drop, Nat.succ_mul, Nat.add_comm (i * s) s]
      have hdlen : (l.drop s).length = k * s := by
        rw [List.length_drop, hl, Nat.succ_mul, Nat.add_sub_cancel]
      rw [hcong, ih (l.drop s) hdlen, List.take_append_drop]

lemma segments_length (data : List ℚ) (k : ℕ) : (segments data k).length = k := by
  rw [segments, List.length_map, List.length_range]

lemma segments_getD (data : List ℚ) (k i : ℕ) (h : i < k) :
    (segments data k).getD i []
      = ((padData data k).drop (i * segSize data.length k)).take (segSize data.length k) := by
  rw [segments]
  exact getD_map_range _ _ h

lemma segments_getD_length (data : List ℚ) (k i : ℕ) (hk : 1 ≤ k) (h : i < k) :
    ((segments data k).getD i []).length = segSize data.length k := by
  rw [segments_getD data k i h, List.length_take, List.length_drop, padData_length data k hk]
  refine min_eq_left ?_
  rw [← Nat.sub_mul]
  exact Nat.le_mul_of_pos_left _ (by omega)

lemma flatten_segments (data : List ℚ) (k : ℕ) (hk : 1 ≤ k) :
    (segments data k).flatten = padData data k := by
  rw [segments]
  exact flatten_slices _ k _ (padData_length data k hk)

lemma interpEval_eq_eval (s : Finset ℕ) (r : ℕ → ℚ) (x : ℚ) :
    interpEval s r x = Polynomial.eval x (Lagrange.interpolate s (fun i => (i : ℚ)) r) := by
  rw [interpEval, Lagrange.interpolate_apply, Polynomial.eval_finset_sum]
  refine Finset.sum_congr rfl fun i _ => ?_
  rw [Polynomial.eval_mul, Polynomial.eval_C, Lagrange.basis, Polynomial.eval_prod]
  refine congrArg (r i * ·) (Finset.prod_congr rfl fun j _ => ?_)
  rw [Lagrange.basisDivisor, Polynomial.eval_mul, Polynomial.eval_C, Polynomial.eval_sub,
    Polynomial.eval_X, Polynomial.eval_C]

lemma castQ_injOn (T : Finset ℕ) : Set.InjOn (fun i : ℕ => (i : ℚ)) ↑T :=
  fun a _ b _ h => Nat.cast_injective h

lemma encodeChunk_length (data : List ℚ) (k m : ℕ) :
    (encodeChunk data k m).length = k + m := by
  rw [encodeChunk, zfecEncode, List.length_map, List.length_range]

lemma encodeChunk_getD (data : List ℚ) (k m j : ℕ) (h : j < k + m) :
    (encodeChunk data k m).getD j []
      = (List.range (segSize data.length k)).map fun t =>
          interpEval (Finset.range k) (fun i => segVal (segments data k) i t) (j : ℚ) := by
  rw [encodeChunk, zfecEncode]
  exact getD_map_range _ _ h

lemma dget_eq_some_of_mem {β : Type} (l : List (S × β)) (p : S × β)
    (hnd : (l.map Prod.fst).Nodup) (hp : p ∈ l) : dget l p.1 = some p.2 := by
  induction l with
  | nil => cases hp
  | cons q rest ih =>
      obtain ⟨a, b⟩ := q
      rw [List.map_cons, List.nodup_cons] at hnd
      rcases List.mem_cons.mp hp with h | h
      · rw [h, dget, if_pos rfl]
      · have hne : p.1 ≠ a := fun hc => hnd.1 (by
          have := List.mem_map_of_mem Prod.fst h
          rw [hc] at this
          exact this)
        rw [dget, if_neg hne]
        exact ih hnd.2 h

/-- Claim C1: erasure-codec round trip.  For every payload and all `k ≥ 1`,
`m ≥ 0`, encoding pads the payload with zero symbols to a multiple of `k`,
splits it into `k` equal segments and derives `n = k + m` fragments; decoding
any `k` received fragments with distinct indices in `[0, n)` carrying the
encoded values (whichever valid `k`-subset arrives) and truncating to the
original length yields the payload exactly — independent of the choice of
subset, since the identity holds for every admissible `pairs` list.  The
zfec codec core is modelled from the spec as a Reed-Solomon code over ℚ
(`interpEval`). -/
theorem erasure_roundtrip (data : List ℚ) (k m : ℕ) (hk : 1 ≤ k)
    (pairs : List (ℕ × List ℚ)) (hplen : k ≤ pairs.length)
    (hnd : ((pairs.take k).map Prod.fst).Nodup)
    (hix : ∀ p ∈ pairs.take k, p.1 < k + m)
    (hval : ∀ p ∈ pairs.take k, p.2 = (encodeChunk data k m).getD p.1 []) :
    (encodeChunk data k m).length = k + m ∧
      decode_chunk pairs k m data.length = some data := by
  refine ⟨encodeChunk_length data k m, ?_⟩
  rw [decode_chunk, if_neg (not_lt.mpr hplen)]
  have hchlen : (pairs.take k).length = k := by
    rw [List.length_take]
    exact min_eq_left hplen
  have hfraglen : ∀ p ∈ pairs.take k, p.2.length = segSize data.length k := by
    intro p hp
    rw [hval p hp, encodeChunk_getD data k m p.1 (hix p hp), List.length_map, List.length_range]
  have hne : pairs.take k ≠ [] := by
    intro hc
    rw [hc, List.length_nil] at hchlen
    omega
  obtain ⟨p0, rest0, hcons⟩ := List.exists_cons_of_ne_nil hne
  have hsz : (pairs.take k).headI.2.length = segSize data.length k := by
    rw [hcons, List.headI_cons]
    exact hfraglen p0 (by rw [hcons]; exact List.mem_cons_self p0 rest0)
  have hTcard : (((pairs.take k).map Prod.fst).toFinset).card = k := by
    rw [List.toFinset_card_of_nodup hnd, List.length_map, hchlen]
  have hkey : ∀ i < k, ∀ t < segSize data.length k,
      interpEval (((pairs.take k).map Prod.fst).toFinset)
        (fun j => ((dget (pairs.take k) j).getD []).getD t 0) ((i : ℕ) : ℚ)
        = segVal (segments data k) i t := by
    intro i hi t ht
    set f := Lagrange.interpolate (Finset.range k) (fun i' : ℕ => (i' : ℚ))
      (fun i' => segVal (segments data k) i' t) with hf
    have hdeg : f.degree < ((((pairs.take k).map Prod.fst).toFinset).card : WithBot ℕ) := by
      rw [hTcard]
      have hd := Lagrange.degree_interpolate_lt
        (fun i' => segVal (segments data k) i' t) (castQ_injOn (Finset.range k))
      rw [Finset.card_range] at hd
      exact hd
    have hvals : ∀ j ∈ ((pairs.take k).map Prod.fst).toFinset,
        ((dget (pairs.take k) j).getD []).getD t 0
          = Polynomial.eval ((j : ℕ) : ℚ) f := by
      intro j hj
      rw [List.mem_toFinset, List.mem_map] at hj
      obtain ⟨p, hp, hpj⟩ := hj
      have hd : dget (pairs.take k) j = some p.2 := by
        rw [← hpj]
        exact dget_eq_some_of_mem _ p hnd hp
      rw [hd, Option.getD_some, hval p hp, ← hpj,
        encodeChunk_getD data k m p.1 (hix p hp), getD_map_range _ _ ht, interpEval_eq_eval, hf]
    have h1 : Lagrange.interpolate (((pairs.take k).map Prod.fst).toFinset)
        (fun i' : ℕ => (i' : ℚ)) (fun j => ((dget (pairs.take k) j).getD []).getD t 0)
        = f := by
      rw [Lagrange.interpolate_eq_of_values_eq_on _ _ hvals]
      exact (Lagrange.eq_interpolate (castQ_injOn _) hdeg).symm
    rw [interpEval_eq_eval, h1, hf,
      Lagrange.eval_interpolate_at_node _ (castQ_injOn _) (Finset.mem_range.mpr hi)]
  have hdec : zfecDecode k (pairs.take k) = segments data k := by
    rw [zfecDecode, hsz]
    have houter : ∀ i ∈ List.range k,
        (List.range (segSize data.length k)).map (fun t =>
            interpEval (((pairs.take k).map Prod.fst).toFinset)
              (fun j => ((dget (pairs.take k) j).getD []).getD t 0) ((i : ℕ) : ℚ))
          = (segments data k).getD i [] := by
      intro i hi
      have hik : i < k := List.mem_range.mp hi
      have hinner : ∀ t ∈ List.range (segSize data.length k),
          interpEval (((pairs.take k).map Prod.fst).toFinset)
            (fun j => ((dget (pairs.take k) j).getD []).getD t 0) ((i : ℕ) : ℚ)
            = ((segments data k).getD i []).getD t 0 := by
        intro t ht2
        rw [hkey i hik t (List.mem_range.mp ht2)]
        rfl
      rw [List.map_congr_left hinner]
      have hmr := map_getD_range_eq ((segments data k).getD i []) (0 : ℚ)
      rw [segments_getD_length data k i hk hik] at hmr
      exact hmr
    rw [List.map_congr_left houter]
    have hmr := map_getD_range_eq (segments data k) ([] : List ℚ)
    rw [segments_length data k] at hmr
    exact hmr
  rw [hdec, flatten_segments data k hk, padData, List.take_left]

lemma roundtrip_example_vals :
    ∀ p ∈ ([(0, [1, 2]), (2, [5, -2])] : List (ℕ × List ℚ)).take 2,
      p.2 = (encodeChunk [1, 2, 3] 2 1).getD p.1 [] := by
  intro p hp
  rcases List.mem_cons.mp hp with h | h
  · rw [h]
    with_unfolding_all rfl
  · rcases List.mem_cons.mp h with h2 | h2
    · rw [h2]
      with_unfolding_all rfl
    · cases h2

theorem erasure_roundtrip_witness :
    1 ≤ 2 ∧ 2 ≤ ([(0, [1, 2]), (2, [5, -2])] : List (ℕ × List ℚ)).length ∧
      ((([(0, [1, 2]), (2, [5, -2])] : List (ℕ × List ℚ)).take 2).map Prod.fst).Nodup ∧
      (∀ p ∈ ([(0, [1, 2]), (2, [5, -2])] : List (ℕ × List ℚ)).take 2, p.1 < 2 + 1) ∧
      (∀ p ∈ ([(0, [1, 2]), (2, [5, -2])] : List (ℕ × List ℚ)).take 2,
        p.2 = (encodeChunk [1, 2, 3] 2 1).getD p.1 []) ∧
      ((encodeChunk ([1, 2, 3] : List ℚ) 2 1).length = 2 + 1 ∧
        decode_chunk ([(0, [1, 2]), (2, [5, -2])] : List (ℕ × List ℚ)) 2 1
          ([1, 2, 3] : List ℚ).length = some [1, 2, 3]) :=
  ⟨by decide, by decide, by decide, by decide, roundtrip_example_vals,
    erasure_roundtrip [1, 2, 3] 2 1 (by decide) [(0, [1, 2]), (2, [5, -2])]
      (by decide) (by decide) (by decide) roundtrip_example_vals⟩
